import Mathlib

/-!
# Verification of the vagabond migration tool (src/main.rs)

A shallow embedding of the migration-sequencing core of `vagabond`, a
Cassandra schema-migration tool.  Rust strings are modelled as `List Char`
(`Str`); the filesystem (manifest file, migration directories, script files)
and the database session (tracking-table rows, executed statements) are
modelled as explicit state.  Each of the five sequencer operations
(`apply`, `rollback`, `redo`, `delete`, `status`) and the `new` registry
operation is translated from the corresponding branch of `main`, and the
helper functions keep the names of their Rust counterparts
(`apply_migration`, `get_current_migration`, `del_current_migration`,
`set_current_migration`).
-/

/-- Rust `String` / `&str`, modelled as a list of characters. -/
abbrev Str := List Char

/-- Convenience conversion from a Lean string literal to `Str`. -/
def strData (s : String) : Str := s.data

/-- Rust `str::split(sep)` for a one-character separator: the list of
fragments between occurrences of `sep`, keeping empty fragments
(`"a;;b"` splits into `["a", "", "b"]`, `""` splits into `[""]`). -/
def splitOnChar (sep : Char) : Str → List Str
  | [] => [[]]
  | c :: rest =>
    if c = sep then [] :: splitOnChar sep rest
    else
      match splitOnChar sep rest with
      | [] => [[c]]
      | r :: rs => (c :: r) :: rs

/-- Inverse of `splitOnChar`: join fragments with a newline between each
pair (the shape of the manifest file: one entry per line). -/
def joinNl : List Str → Str
  | [] => []
  | [l] => l
  | l :: ls => l ++ '\n' :: joinNl ls

/-- Rust `str::replace(pat, rep)` for a nonempty pattern: replace every
occurrence of `pat` by `rep`, scanning left to right, non-overlapping.
(The `pat = []` branch is degenerate and never used: the program only
replaces patterns of the form `"\n" + name + "\n"`.) -/
def replaceAll (pat rep s : Str) : Str :=
  match pat, s with
  | _, [] => []
  | [], c :: t => c :: replaceAll [] rep t
  | p0 :: pt, c :: t =>
    if (p0 :: pt).isPrefixOf (c :: t) = true then
      rep ++ replaceAll (p0 :: pt) rep (t.drop pt.length)
    else
      c :: replaceAll (p0 :: pt) rep t
termination_by s.length
decreasing_by
  · simp
  · simp [List.length_drop]; omega
  · simp

/-- Remove the first occurrence of `x` from `l` (the effect of
`fs::remove_dir_all` on a directory listing with unique names). -/
def removeFirst (l : List Str) (x : Str) : List Str :=
  match l with
  | [] => []
  | y :: t => if y = x then t else y :: removeFirst t x

/-- Number of occurrences of `x` in `l`. -/
def countOcc (l : List Str) (x : Str) : Nat :=
  match l with
  | [] => 0
  | y :: t => (if y = x then 1 else 0) + countOcc t x

/-- The observable state of a run: the rows of the `vagabond` tracking
table in the database, the log of migration-script statements executed so
far against the session, the raw text of the `./migrations/vagabond`
manifest file, and the names of the migration directories present under
`./migrations`. -/
structure St where
  rows : List Str
  log : List Str
  manifest : Str
  dirs : List Str
deriving DecidableEq

/-- Result of one operation: success, or the fatal error printed by
`ioexpect` / `panic!` before the process exits. -/
inductive Outcome where
  | ok : Outcome
  | err : Str → Outcome
deriving DecidableEq

/-- One step of `apply_migration`'s loop (src/main.rs:166-174): walk the
`;`-split fragments in order; an empty fragment `break`s out of the loop;
a non-empty fragment is executed (`ok q` says whether the session accepts
statement `q`); on the first failing statement the run stops (`ioexpect`
aborts the process), leaving the statements already executed in place. -/
def runStmts (ok : Str → Bool) : List Str → St → St × Bool
  | [], st => (st, true)
  | q :: qs, st =>
    if q.isEmpty then (st, true)
    else if ok q then runStmts ok qs { st with log := st.log ++ [q] }
    else (st, false)

/-- `apply_migration` (src/main.rs:166-174): split the script on `";"` and
execute the fragments via `runStmts`.  Returns the state after execution
and whether every attempted statement succeeded. -/
def apply_migration (ok : Str → Bool) (script : Str) (st : St) : St × Bool :=
  runStmts ok (splitOnChar ';' script) st

/-- The statements `apply_migration` actually executes: the longest prefix
of non-empty fragments, cut at the first statement the session rejects. -/
def execStmts (ok : Str → Bool) (script : Str) : List Str :=
  ((splitOnChar ';' script).takeWhile (fun q => !q.isEmpty)).takeWhile ok

/-- `get_current_migration` (src/main.rs:176-185): the query result is an
optional list of rows (`body.into_rows()`); the function returns the first
row when one exists (`rows.first()`), `none` when the result is `none` or
the row list is empty. -/
def get_current_migration (res : Option (List Str)) : Option Str :=
  match res with
  | none => none
  | some rows => rows.head?

/-- The pointer read as the sequencer performs it: `SELECT migration FROM
vagabond` returns the tracking-table rows. -/
def get_cur (st : St) : Option Str := get_current_migration (some st.rows)

/-- `del_current_migration` (src/main.rs:187-189): `TRUNCATE vagabond`. -/
def del_current_migration (st : St) : St := { st with rows := [] }

/-- `set_current_migration` (src/main.rs:191-194): truncate, then insert
`name` as the sole row. -/
def set_current_migration (st : St) (name : Str) : St :=
  { del_current_migration st with rows := (del_current_migration st).rows ++ [name] }

/-- The manifest-parsing loop of `get_cfg` (src/main.rs:94-104): lines not
starting with `"//"` are migration names, in file order; a name already
seen is a fatal duplicate (`panic!`), modelled as `none`. -/
def loadMigsAux (acc : List Str) : List Str → Option (List Str)
  | [] => some acc
  | l :: ls =>
    if (strData "//").isPrefixOf l = true then loadMigsAux acc ls
    else if l ∈ acc then none
    else loadMigsAux (acc ++ [l]) ls

/-- `get_cfg`'s registry load: split the manifest on newlines and collect
the non-comment lines, rejecting duplicates. -/
def loadMigs (manifest : Str) : Option (List Str) :=
  loadMigsAux [] (splitOnChar '\n' manifest)

/-- The scan inside the `apply` branch (src/main.rs:303-318): once the
entry equal to `cur` has been seen, the next entry is the migration to
apply; `none` if `cur` never occurs or is last. -/
def findNext : List Str → Str → Option Str
  | [], _ => none
  | x :: xs, cur => if x = cur then xs.head? else findNext xs cur

/-- Selection of the next migration in the `apply` branch
(src/main.rs:301-319): the first Registry entry when no pointer is set,
otherwise the entry following the pointer's occurrence. -/
def nextMigration (migs : List Str) (cur? : Option Str) : Option Str :=
  match cur? with
  | none => migs.head?
  | some cur => findNext migs cur

/-- The `apply` branch of `main` (src/main.rs:297-328): pick the next
migration, read its `up.cql` (`upOf`), execute it, and only then update
the pointer.  Any failure aborts with the corresponding `ioexpect`
message, leaving the state reached so far. -/
def applyOp (ok : Str → Bool) (upOf : Str → Option Str) (migs : List Str) (st : St) :
    Outcome × St :=
  match nextMigration migs (get_cur st) with
  | none => (Outcome.err (strData "No migration to apply!"), st)
  | some name =>
    match upOf name with
    | none => (Outcome.err (strData "Error reading up.cql"), st)
    | some up =>
      let r := apply_migration ok up st
      if r.2 then (Outcome.ok, set_current_migration r.1 name)
      else (Outcome.err (strData "Error applying migration query"), r.1)

/-- The pointer-repositioning loop of the `rollback` branch
(src/main.rs:285-293): for every index `i` whose entry equals `cur`, set
the pointer to `migs[i-1]`, or clear it when `i = 0`.  The loop does not
break after a match; `i` is the running index of `enumerate()`. -/
def rollbackScanGo (migs : List Str) (cur : Str) : Nat → List Str → St → St
  | _, [], st => st
  | i, x :: xs, st =>
    rollbackScanGo migs cur (i + 1) xs
      (if x = cur then
        (if 0 < i then set_current_migration st (migs.getD (i - 1) []) else del_current_migration st)
      else st)

/-- The full scan over `cfg.migrations` with the running index starting
at `0`. -/
def rollbackScan (migs : List Str) (cur : Str) (st : St) : St :=
  rollbackScanGo migs cur 0 migs st

/-- The `rollback` branch of `main` (src/main.rs:274-295): require a
pointer, read and run the current entry's `down.cql` (`downOf`), then
reposition the pointer by scanning the Registry. -/
def rollbackOp (ok : Str → Bool) (downOf : Str → Option Str) (migs : List Str) (st : St) :
    Outcome × St :=
  match get_cur st with
  | none => (Outcome.err (strData "No migration currently applied"), st)
  | some cur =>
    match downOf cur with
    | none => (Outcome.err (strData "Error reading down.cql"), st)
    | some down =>
      let r := apply_migration ok down st
      if r.2 then (Outcome.ok, rollbackScan migs cur r.1)
      else (Outcome.err (strData "Error applying migration query"), r.1)

/-- The `redo` branch of `main` (src/main.rs:259-272): require a pointer,
run the current entry's `down.cql`, then read and run the same entry's
`up.cql`.  The pointer is never written. -/
def redoOp (ok : Str → Bool) (upOf downOf : Str → Option Str) (st : St) : Outcome × St :=
  match get_cur st with
  | none => (Outcome.err (strData "No migration currently applied"), st)
  | some cur =>
    match downOf cur with
    | none => (Outcome.err (strData "Error reading down.cql"), st)
    | some down =>
      let r := apply_migration ok down st
      if r.2 then
        match upOf cur with
        | none => (Outcome.err (strData "Error reading up.cql"), r.1)
        | some up =>
          let r2 := apply_migration ok up r.1
          if r2.2 then (Outcome.ok, r2.1)
          else (Outcome.err (strData "Error applying migration query"), r2.1)
      else (Outcome.err (strData "Error applying migration query"), r.1)

/-- The applied/pending scan of the `delete` branch (src/main.rs:346-365):
the entries strictly after the first occurrence of `cur` are pending and
removed; entries up to and including `cur` are untouched.  (Helper: the
suffix after the first occurrence of `cur`, `[]` if `cur` is absent.) -/
def afterFirst : List Str → Str → List Str
  | [], _ => []
  | x :: xs, cur => if x = cur then xs else afterFirst xs cur

/-- The set of entries the `delete` branch removes: everything when no
pointer is set, otherwise the entries strictly after the pointer. -/
def pendingOf (migs : List Str) (cur? : Option Str) : List Str :=
  match cur? with
  | none => migs
  | some cur => afterFirst migs cur

/-- Prepend a newline to each line and append a final newline: the shape
of the padded manifest string `format!("\n{}\n", cfg.vagabond)` in terms
of its lines. -/
def paddedLines (ls : List Str) : Str :=
  ls.flatMap (fun l => '\n' :: l) ++ ['\n']

/-- `paddedLines` without its leading newline. -/
def tailPadded : List Str → Str
  | [] => []
  | l :: r => l ++ paddedLines r

/-- The removal loop of the `delete` branch (src/main.rs:339-368): for
each pending name `x`, remove the directory `./migrations/x` (fatal if it
does not exist) and splice `"\n" + x + "\n"` out of the padded manifest
string `v`; afterwards write `v` back minus its first and last byte
(`&vagabond[1..vagabond.len()-1]`, a fatal slice panic if fewer than two
bytes remain). -/
def deleteGo (pending : List Str) (v : Str) (st : St) : Outcome × St :=
  match pending with
  | [] =>
    if v.length < 2 then (Outcome.err (strData "slice index out of range"), st)
    else (Outcome.ok, { st with manifest := (v.drop 1).dropLast })
  | x :: xs =>
    if x ∈ st.dirs then
      deleteGo xs (replaceAll ('\n' :: (x ++ ['\n'])) ['\n'] v)
        { st with dirs := removeFirst st.dirs x }
    else (Outcome.err (strData "Error deleting directory"), st)

/-- The `delete` branch of `main` (src/main.rs:330-368): compute the
pending entries from the pointer, remove each one's directory and manifest
line, and rewrite the manifest.  The tracking table is never written. -/
def deleteOp (migs : List Str) (st : St) : Outcome × St :=
  deleteGo (pendingOf migs (get_cur st)) ('\n' :: st.manifest ++ ['\n']) st

/-- The `new` branch of `main` (src/main.rs:237-257): a name already in
the loaded Registry is a fatal duplicate (`panic!`) before any filesystem
write; otherwise the directory is created (fatal if it exists), `up.cql`
and `down.cql` are created empty, and the manifest is rewritten as
`format!("{}\n{}", cfg.vagabond, name)`. -/
def newOp (name : Str) (migs : List Str) (st : St) : Outcome × St :=
  if name ∈ migs then (Outcome.err (strData "Migration name is already used!"), st)
  else if name ∈ st.dirs then (Outcome.err (strData "Cannot create directory"), st)
  else
    (Outcome.ok,
      { st with dirs := st.dirs ++ [name], manifest := st.manifest ++ '\n' :: name })

/-- The marking loop of the status (default) branch (src/main.rs:374-395)
when a pointer is set: entries are printed green (`true`, Applied) while
the `applied` flag holds, and the flag is cleared just after the entry
equal to `cur`; later entries are printed red (`false`, Pending). -/
def statusWalk (cur : Str) : List Str → Bool → List (Str × Bool)
  | [], _ => []
  | x :: xs, applied =>
    if applied then (x, true) :: statusWalk cur xs (if x = cur then false else applied)
    else (x, false) :: statusWalk cur xs false

/-- The status (default) branch of `main` (src/main.rs:370-396): read the
pointer and mark each Registry entry Applied (`true`) or Pending
(`false`); with no pointer every entry is Pending.  The branch performs
no write: the state is returned unchanged. -/
def statusOp (migs : List Str) (st : St) : List (Str × Bool) × St :=
  (match get_cur st with
   | none => migs.map (fun x => (x, false))
   | some cur => statusWalk cur migs true, st)

/-- An initial state: empty tracking table, no statements executed yet,
empty manifest, no migration directories (used by concrete witnesses). -/
def st0 : St := { rows := [], log := [], manifest := [], dirs := [] }

/-- A concrete mid-life state for witnesses of the `delete` branch: the
manifest holds a comment banner and the entries `a` and `b`, the pointer
is on `a`, and only the pending directory `b` remains to be removed. -/
def stDel : St :=
  { rows := [strData "a"], log := [], manifest := strData "//h\na\nb", dirs := [strData "b"] }

/-! ### Lemmas about `splitOnChar` and `joinNl` -/

theorem splitOnChar_ne_nil (sep : Char) (s : Str) : splitOnChar sep s ≠ [] := by
  induction s with
  | nil => simp [splitOnChar]
  | cons c rest ih =>
    simp only [splitOnChar]
    by_cases h : c = sep
    · simp [h]
    · simp only [if_neg h]
      cases hs : splitOnChar sep rest with
      | nil => simp
      | cons r rs => simp

theorem sep_not_mem_splitOnChar (sep : Char) (s : Str) :
    ∀ l ∈ splitOnChar sep s, sep ∉ l := by
  induction s with
  | nil =>
    intro l hl
    simp [splitOnChar] at hl
    simp [hl]
  | cons c rest ih =>
    intro l hl
    simp only [splitOnChar] at hl
    by_cases h : c = sep
    · rw [if_pos h] at hl
      rcases List.mem_cons.mp hl with h1 | h2
      · simp [h1]
      · exact ih l h2
    · rw [if_neg h] at hl
      cases hs : splitOnChar sep rest with
      | nil => exact absurd hs (splitOnChar_ne_nil sep rest)
      | cons r rs =>
        rw [hs] at hl
        rcases List.mem_cons.mp hl with h1 | h2
        · subst h1
          intro hmem
          rcases List.mem_cons.mp hmem with h3 | h4
          · exact h h3.symm
          · exact ih r (hs ▸ List.mem_cons_self r rs) h4
        · exact ih l (hs ▸ List.mem_cons_of_mem r h2)

theorem joinNl_splitOnChar (s : Str) : joinNl (splitOnChar '\n' s) = s := by
  induction s with
  | nil => simp [splitOnChar, joinNl]
  | cons c rest ih =>
    simp only [splitOnChar]
    by_cases h : c = '\n'
    · rw [if_pos h]
      cases hs : splitOnChar '\n' rest with
      | nil => exact absurd hs (splitOnChar_ne_nil '\n' rest)
      | cons r rs =>
        rw [hs] at ih
        have hstep : joinNl ([] :: r :: rs) = [] ++ '\n' :: joinNl (r :: rs) := rfl
        rw [hstep, ih]
        simp [h]
    · rw [if_neg h]
      cases hs : splitOnChar '\n' rest with
      | nil => exact absurd hs (splitOnChar_ne_nil '\n' rest)
      | cons r rs =>
        rw [hs] at ih
        cases rs with
        | nil => simp [joinNl] at ih ⊢; rw [ih]
        | cons r2 rs2 =>
          have h1 : joinNl ((c :: r) :: r2 :: rs2) = (c :: r) ++ '\n' :: joinNl (r2 :: rs2) := rfl
          have h2 : joinNl (r :: r2 :: rs2) = r ++ '\n' :: joinNl (r2 :: rs2) := rfl
          rw [h2] at ih
          rw [h1]
          simpa using ih

theorem splitOnChar_no_sep (sep : Char) (s : Str) (h : sep ∉ s) :
    splitOnChar sep s = [s] := by
  induction s with
  | nil => simp [splitOnChar]
  | cons c rest ih =>
    have hc : ¬ c = sep := fun hc => h (hc ▸ List.mem_cons_self c rest)
    have hrest : sep ∉ rest := fun hm => h (List.mem_cons_of_mem c hm)
    simp only [splitOnChar, if_neg hc, ih hrest]

theorem splitOnChar_append_sep (sep : Char) (a b : Str) (h : sep ∉ a) :
    splitOnChar sep (a ++ sep :: b) = a :: splitOnChar sep b := by
  induction a with
  | nil => simp [splitOnChar]
  | cons c a' ih =>
    have hc : ¬ c = sep := fun hc => h (hc ▸ List.mem_cons_self c a')
    have ha' : sep ∉ a' := fun hm => h (List.mem_cons_of_mem c hm)
    simp only [List.cons_append, splitOnChar, List.append_eq, if_neg hc, ih ha']

theorem splitOnChar_append_last (m name : Str) (h : '\n' ∉ name) :
    splitOnChar '\n' (m ++ '\n' :: name) = splitOnChar '\n' m ++ [name] := by
  induction m with
  | nil => simp [splitOnChar, splitOnChar_no_sep '\n' name h]
  | cons c m' ih =>
    by_cases hc : c = '\n'
    · simp only [List.cons_append, splitOnChar, List.append_eq, if_pos hc, ih, List.cons_append]
    · simp only [List.cons_append, splitOnChar, List.append_eq, if_neg hc, ih]
      cases hs : splitOnChar '\n' m' with
      | nil => exact absurd hs (splitOnChar_ne_nil '\n' m')
      | cons r rs => simp

/-! ### Lemmas about `List.isPrefixOf` on `Str` -/

theorem isPrefixOf_iff (a b : Str) : a.isPrefixOf b = true ↔ ∃ t, b = a ++ t := by
  induction a generalizing b with
  | nil => simp [List.isPrefixOf]
  | cons x a' ih =>
    cases b with
    | nil => simp [List.isPrefixOf]
    | cons y b' =>
      simp only [List.isPrefixOf, Bool.and_eq_true, beq_iff_eq, ih]
      constructor
      · rintro ⟨hxy, t, ht⟩
        exact ⟨t, by rw [List.cons_append, hxy, ht]⟩
      · rintro ⟨t, ht⟩
        rw [List.cons_append] at ht
        injection ht with h1 h2
        exact ⟨h1.symm, t, h2⟩

theorem isPrefixOf_append_self (a t : Str) : a.isPrefixOf (a ++ t) = true :=
  (isPrefixOf_iff a (a ++ t)).mpr ⟨t, rfl⟩

/-! ### Lemmas about `countOcc` and `removeFirst` -/

theorem countOcc_eq_zero (l : List Str) (x : Str) : countOcc l x = 0 ↔ x ∉ l := by
  induction l with
  | nil => simp [countOcc]
  | cons y t ih =>
    by_cases h : y = x
    · subst h
      constructor
      · intro h0
        exfalso
        simp [countOcc] at h0
      · intro hn
        exact (hn (List.mem_cons_self y t)).elim
    · simp only [countOcc, if_neg h, Nat.zero_add, ih, List.mem_cons]
      constructor
      · intro hnt hm
        rcases hm with h1 | h2
        · exact h h1.symm
        · exact hnt h2
      · intro hn
        exact fun hx => hn (Or.inr hx)

theorem nodup_countOcc (l : List Str) (x : Str) (h : l.Nodup) (hm : x ∈ l) :
    countOcc l x = 1 := by
  induction l with
  | nil => simp at hm
  | cons y t ih =>
    rw [List.nodup_cons] at h
    rcases List.mem_cons.mp hm with h1 | h2
    · subst h1
      simp [countOcc, (countOcc_eq_zero t x).mpr h.1]
    · have hyx : ¬ y = x := fun he => h.1 (he ▸ h2)
      simp [countOcc, hyx, ih h.2 h2]

theorem countOcc_filter (l : List Str) (f : Str → Bool) (x : Str) (hx : f x = true) :
    countOcc (l.filter f) x = countOcc l x := by
  induction l with
  | nil => simp [countOcc]
  | cons y t ih =>
    by_cases h : y = x
    · subst h
      simp [List.filter_cons, hx, countOcc, ih]
    · cases hf : f y with
      | true => simp [List.filter_cons, hf, countOcc, h, ih]
      | false => simp [List.filter_cons, hf, countOcc, h, ih]

theorem removeFirst_eq_filter (l : List Str) (x : Str) (h : countOcc l x ≤ 1) :
    removeFirst l x = l.filter (fun y => !decide (y = x)) := by
  induction l with
  | nil => simp [removeFirst]
  | cons y t ih =>
    by_cases hyx : y = x
    · subst hyx
      simp [countOcc] at h
      have h0 : countOcc t y = 0 := by omega
      have hnm : y ∉ t := (countOcc_eq_zero t y).mp h0
      have : t.filter (fun z => !decide (z = y)) = t := by
        apply List.filter_eq_self.mpr
        intro z hz
        simp only [Bool.not_eq_true']
        exact decide_eq_false (fun he : z = y => hnm (he ▸ hz))
      simp [removeFirst, List.filter_cons, this]
    · simp only [countOcc, if_neg hyx, Nat.zero_add] at h
      simp [removeFirst, hyx, List.filter_cons, ih h]

theorem mem_removeFirst_of_ne (l : List Str) (x y : Str) (h : y ≠ x) :
    y ∈ removeFirst l x ↔ y ∈ l := by
  induction l with
  | nil => simp [removeFirst]
  | cons z t ih =>
    by_cases hz : z = x
    · subst hz
      simp only [removeFirst, if_pos rfl, List.mem_cons]
      exact ⟨fun hm => Or.inr hm, fun hm => hm.elim (fun he => absurd he h) id⟩
    · simp only [removeFirst, if_neg hz, List.mem_cons, ih]

/-! ### Lemmas about `replaceAll` -/

theorem replaceAll_nil (pat rep : Str) : replaceAll pat rep [] = [] := by
  rw [replaceAll.eq_def]
  cases pat <;> simp

theorem replaceAll_no_match_cons (p0 : Char) (pt rep : Str) (c : Char) (t : Str)
    (h : ¬ (p0 :: pt).isPrefixOf (c :: t) = true) :
    replaceAll (p0 :: pt) rep (c :: t) = c :: replaceAll (p0 :: pt) rep t := by
  rw [replaceAll.eq_def]
  simp [h]

theorem replaceAll_match (p0 : Char) (pt rep w : Str) :
    replaceAll (p0 :: pt) rep (p0 :: (pt ++ w)) = rep ++ replaceAll (p0 :: pt) rep w := by
  have hpre : (p0 :: pt).isPrefixOf (p0 :: (pt ++ w)) = true :=
    (isPrefixOf_iff _ _).mpr ⟨w, by simp⟩
  rw [replaceAll.eq_def]
  simp only [hpre, if_pos]
  rw [List.drop_left]

theorem replaceAll_append_no_head (p0 : Char) (pt rep pre s : Str) (h : p0 ∉ pre) :
    replaceAll (p0 :: pt) rep (pre ++ s) = pre ++ replaceAll (p0 :: pt) rep s := by
  induction pre with
  | nil => simp
  | cons c pre' ih =>
    have hc : ¬ (p0 :: pt).isPrefixOf (c :: (pre' ++ s)) = true := by
      intro hp
      rcases (isPrefixOf_iff _ _).mp hp with ⟨t, ht⟩
      rw [List.cons_append] at ht
      injection ht with h1 h2
      exact h (List.mem_cons.mpr (Or.inl h1.symm))
    have h' : p0 ∉ pre' := fun hm => h (List.mem_cons_of_mem c hm)
    rw [List.cons_append, replaceAll_no_match_cons p0 pt rep c (pre' ++ s) hc, ih h',
      List.cons_append]

theorem eq_of_append_sep (x m w t : Str) (hx : '\n' ∉ x) (hm : '\n' ∉ m)
    (he : x ++ '\n' :: w = m ++ '\n' :: t) : x = m ∧ w = t := by
  induction x generalizing m with
  | nil =>
    cases m with
    | nil =>
      injection he with _ h2
      exact ⟨rfl, h2⟩
    | cons d m' =>
      rw [List.nil_append, List.cons_append] at he
      injection he with h1 _
      exact absurd (List.mem_cons.mpr (Or.inl h1)) hm
  | cons a x' ih =>
    cases m with
    | nil =>
      rw [List.nil_append, List.cons_append] at he
      injection he with h1 _
      exact absurd (List.mem_cons.mpr (Or.inl h1.symm)) hx
    | cons d m' =>
      rw [List.cons_append, List.cons_append] at he
      injection he with h1 h2
      have hx' : '\n' ∉ x' := fun hmm => hx (List.mem_cons_of_mem a hmm)
      have hm' : '\n' ∉ m' := fun hmm => hm (List.mem_cons_of_mem d hmm)
      obtain ⟨e1, e2⟩ := ih m' hx' hm' h2
      exact ⟨by rw [h1, e1], e2⟩

theorem pat_not_match (x m t : Str) (hx : '\n' ∉ x) (hm : '\n' ∉ m) (hne : x ≠ m) :
    ¬ ('\n' :: (x ++ ['\n'])).isPrefixOf ('\n' :: (m ++ '\n' :: t)) = true := by
  intro h
  rcases (isPrefixOf_iff _ _).mp h with ⟨u, hu⟩
  rw [List.cons_append] at hu
  injection hu with _ h2
  rw [List.append_assoc, List.singleton_append] at h2
  exact hne (eq_of_append_sep m x t u hm hx h2).1.symm

/-! ### Lemmas about `paddedLines` and `tailPadded` -/

theorem paddedLines_eq (ls : List Str) : paddedLines ls = '\n' :: tailPadded ls := by
  cases ls with
  | nil => rfl
  | cons l r => simp [paddedLines, tailPadded, List.flatMap_cons]

theorem tailPadded_cons (l : Str) (r : List Str) :
    tailPadded (l :: r) = l ++ '\n' :: tailPadded r := by
  rw [tailPadded, paddedLines_eq]

theorem tailPadded_join (ls : List Str) (h : ls ≠ []) :
    tailPadded ls = joinNl ls ++ ['\n'] := by
  induction ls with
  | nil => exact absurd rfl h
  | cons l r ih =>
    cases r with
    | nil => simp [tailPadded, paddedLines, joinNl]
    | cons r0 rs =>
      rw [tailPadded_cons, ih (by simp)]
      have h1 : joinNl (l :: r0 :: rs) = l ++ '\n' :: joinNl (r0 :: rs) := rfl
      rw [h1]
      simp [List.append_assoc]

theorem paddedLines_join (ls : List Str) (h : ls ≠ []) :
    paddedLines ls = '\n' :: (joinNl ls ++ ['\n']) := by
  rw [paddedLines_eq, tailPadded_join ls h]

theorem noOccur_tail (x : Str) (hx : '\n' ∉ x) (r : List Str)
    (hr : ∀ l ∈ r, '\n' ∉ l) (hm : x ∉ r) :
    replaceAll ('\n' :: (x ++ ['\n'])) ['\n'] (tailPadded r) = tailPadded r := by
  induction r with
  | nil => exact replaceAll_nil _ _
  | cons m r' ih =>
    have hmnl : '\n' ∉ m := hr m (List.mem_cons_self m r')
    have hr' : ∀ l ∈ r', '\n' ∉ l := fun l hl => hr l (List.mem_cons_of_mem m hl)
    have hm' : x ∉ r' := fun hc => hm (List.mem_cons_of_mem m hc)
    have hne : x ≠ m := fun he => hm (List.mem_cons.mpr (Or.inl he))
    rw [tailPadded_cons]
    rw [replaceAll_append_no_head '\n' (x ++ ['\n']) ['\n'] m ('\n' :: tailPadded r') hmnl]
    cases r' with
    | nil =>
      have hno : ¬ ('\n' :: (x ++ ['\n'])).isPrefixOf ('\n' :: tailPadded ([] : List Str)) = true := by
        intro hp
        rcases (isPrefixOf_iff _ _).mp hp with ⟨u, hu⟩
        rw [List.cons_append] at hu
        injection hu with _ h2
        exact absurd h2.symm (by simp [tailPadded])
      rw [replaceAll_no_match_cons '\n' (x ++ ['\n']) ['\n'] '\n' (tailPadded []) hno]
      rw [show tailPadded ([] : List Str) = [] from rfl, replaceAll_nil]
    | cons m2 r'' =>
      have hm2 : '\n' ∉ m2 := hr' m2 (List.mem_cons_self m2 r'')
      have hne2 : x ≠ m2 := fun he => hm' (he ▸ List.mem_cons_self m2 r'')
      have hshape : tailPadded (m2 :: r'') = m2 ++ '\n' :: tailPadded r'' := tailPadded_cons m2 r''
      have hno : ¬ ('\n' :: (x ++ ['\n'])).isPrefixOf ('\n' :: tailPadded (m2 :: r'')) = true := by
        rw [hshape]
        exact pat_not_match x m2 (tailPadded r'') hx hm2 hne2
      rw [replaceAll_no_match_cons '\n' (x ++ ['\n']) ['\n'] '\n' (tailPadded (m2 :: r'')) hno]
      rw [ih hr' hm']

theorem replace_padded_removeFirst (x : Str) (hx : '\n' ∉ x) (ls : List Str)
    (hls : ∀ l ∈ ls, '\n' ∉ l) (hc : countOcc ls x = 1) :
    replaceAll ('\n' :: (x ++ ['\n'])) ['\n'] (paddedLines ls) = paddedLines (removeFirst ls x) := by
  induction ls with
  | nil => simp [countOcc] at hc
  | cons l r ih =>
    have hlnl : '\n' ∉ l := hls l (List.mem_cons_self l r)
    have hr : ∀ l' ∈ r, '\n' ∉ l' := fun l' hl' => hls l' (List.mem_cons_of_mem l hl')
    by_cases hlx : l = x
    · subst hlx
      have hc0 : countOcc r l = 0 := by
        simp [countOcc] at hc
        omega
      have hnm : l ∉ r := (countOcc_eq_zero r l).mp hc0
      rw [show removeFirst (l :: r) l = r from by simp [removeFirst]]
      rw [paddedLines_eq, tailPadded_cons]
      have hshape : l ++ '\n' :: tailPadded r = (l ++ ['\n']) ++ tailPadded r := by simp
      rw [hshape, replaceAll_match '\n' (l ++ ['\n']) ['\n'] (tailPadded r)]
      rw [noOccur_tail l hx r hr hnm]
      rw [List.singleton_append, ← paddedLines_eq]
    · have hc1 : countOcc r x = 1 := by simpa [countOcc, hlx] using hc
      have hne : x ≠ l := fun he => hlx he.symm
      rw [show removeFirst (l :: r) x = l :: removeFirst r x from by simp [removeFirst, hlx]]
      rw [paddedLines_eq, tailPadded_cons]
      have hno : ¬ ('\n' :: (x ++ ['\n'])).isPrefixOf ('\n' :: (l ++ '\n' :: tailPadded r)) = true :=
        pat_not_match x l (tailPadded r) hx hlnl hne
      rw [replaceAll_no_match_cons '\n' (x ++ ['\n']) ['\n'] '\n' (l ++ '\n' :: tailPadded r) hno]
      rw [replaceAll_append_no_head '\n' (x ++ ['\n']) ['\n'] l ('\n' :: tailPadded r) hlnl]
      rw [← paddedLines_eq, ih hr hc1]
      rw [paddedLines_eq (l :: removeFirst r x), tailPadded_cons, ← paddedLines_eq]

/-! ### Lemmas about the Executor -/

theorem runStmts_log (ok : Str → Bool) (qs : List Str) (st : St) :
    (runStmts ok qs st).1.log = st.log ++ (qs.takeWhile (fun q => !q.isEmpty)).takeWhile ok := by
  induction qs generalizing st with
  | nil => simp [runStmts]
  | cons q qs' ih =>
    by_cases hq : q.isEmpty
    · simp [runStmts, hq, List.takeWhile_cons]
    · cases hok : ok q with
      | true =>
        rw [show runStmts ok (q :: qs') st = runStmts ok qs' { st with log := st.log ++ [q] } from by
          simp [runStmts, hq, hok]]
        rw [ih]
        simp [List.takeWhile_cons, hq, hok]
      | false =>
        simp only [runStmts, List.takeWhile_cons]
        simp [hq, hok]

theorem runStmts_frame (ok : Str → Bool) (qs : List Str) (st : St) :
    (runStmts ok qs st).1.rows = st.rows ∧ (runStmts ok qs st).1.manifest = st.manifest ∧
      (runStmts ok qs st).1.dirs = st.dirs := by
  induction qs generalizing st with
  | nil => simp [runStmts]
  | cons q qs' ih =>
    by_cases hq : q.isEmpty
    · simp [runStmts, hq]
    · cases hok : ok q with
      | true => simp [runStmts, hq, hok, ih]
      | false => simp [runStmts, hq, hok]

theorem runStmts_ok_iff (ok : Str → Bool) (qs : List Str) (st : St) :
    (runStmts ok qs st).2 = (qs.takeWhile (fun q => !q.isEmpty)).all ok := by
  induction qs generalizing st with
  | nil => simp [runStmts]
  | cons q qs' ih =>
    by_cases hq : q.isEmpty
    · simp [runStmts, hq, List.takeWhile_cons]
    · cases hok : ok q with
      | true =>
        simp only [runStmts, List.takeWhile_cons]
        simp [hq, hok, ih]
      | false =>
        simp only [runStmts, List.takeWhile_cons]
        simp [hq, hok]

theorem apply_migration_log (ok : Str → Bool) (script : Str) (st : St) :
    (apply_migration ok script st).1.log = st.log ++ execStmts ok script :=
  runStmts_log ok (splitOnChar ';' script) st

theorem apply_migration_frame (ok : Str → Bool) (script : Str) (st : St) :
    (apply_migration ok script st).1.rows = st.rows ∧
      (apply_migration ok script st).1.manifest = st.manifest ∧
      (apply_migration ok script st).1.dirs = st.dirs :=
  runStmts_frame ok (splitOnChar ';' script) st

theorem apply_migration_ok_iff (ok : Str → Bool) (script : Str) (st : St) :
    (apply_migration ok script st).2 =
      ((splitOnChar ';' script).takeWhile (fun q => !q.isEmpty)).all ok :=
  runStmts_ok_iff ok (splitOnChar ';' script) st

/-! ### Index helpers -/

theorem get?_decomp (l : List Str) (i : Nat) (x : Str) (h : l.get? i = some x) :
    l = l.take i ++ x :: l.drop (i + 1) := by
  induction l generalizing i with
  | nil => simp [List.get?] at h
  | cons a t ih =>
    cases i with
    | zero =>
      simp only [List.get?] at h
      injection h with h1
      simp [h1]
    | succ j =>
      simp only [List.get?] at h
      have := ih j h
      simp only [List.take_succ_cons, List.drop_succ_cons, List.cons_append]
      rw [← this]

theorem length_take_of_get? (l : List Str) (i : Nat) (x : Str) (h : l.get? i = some x) :
    (l.take i).length = i := by
  induction l generalizing i with
  | nil => simp [List.get?] at h
  | cons a t ih =>
    cases i with
    | zero => simp
    | succ j =>
      simp only [List.get?] at h
      simp [List.take_succ_cons, ih j h]

theorem getD_concat (pre : List Str) (x : Str) (post : List Str) :
    (pre ++ x :: post).getD pre.length [] = x := by
  induction pre with
  | nil => simp [List.getD]
  | cons a t ih => simpa [List.getD] using ih

theorem get?_concat_succ (pre : List Str) (x : Str) (post : List Str) :
    (pre ++ x :: post).get? (pre.length + 1) = post.head? := by
  induction pre with
  | nil =>
    cases post with
    | nil => simp [List.get?]
    | cons b bs => simp [List.get?]
  | cons a t ih => simpa [List.get?] using ih

theorem nodup_split_not_mem (l : List Str) (i : Nat) (x : Str) (hnd : l.Nodup)
    (h : l.get? i = some x) : x ∉ l.take i ∧ x ∉ l.drop (i + 1) := by
  have hd := get?_decomp l i x h
  rw [hd] at hnd
  have h2 := List.nodup_middle.mp hnd
  rw [List.nodup_cons] at h2
  exact ⟨fun hm => h2.1 (List.mem_append.mpr (Or.inl hm)),
    fun hm => h2.1 (List.mem_append.mpr (Or.inr hm))⟩

/-! ### Lemmas about `findNext` and `afterFirst` -/

theorem findNext_not_mem (xs : List Str) (cur : Str) (h : cur ∉ xs) :
    findNext xs cur = none := by
  induction xs with
  | nil => rfl
  | cons x xs' ih =>
    have hx : ¬ x = cur := fun he => h (List.mem_cons.mpr (Or.inl he.symm))
    simp only [findNext, if_neg hx]
    exact ih (fun hm => h (List.mem_cons_of_mem x hm))

theorem findNext_decomp (pre post : List Str) (cur : Str) (h : cur ∉ pre) :
    findNext (pre ++ cur :: post) cur = post.head? := by
  induction pre with
  | nil => simp [findNext]
  | cons c pre' ih =>
    have hc : ¬ c = cur := fun he => h (List.mem_cons.mpr (Or.inl he.symm))
    simp only [List.cons_append, findNext, if_neg hc]
    exact ih (fun hm => h (List.mem_cons_of_mem c hm))

theorem findNext_some (xs : List Str) (cur name : Str) (h : findNext xs cur = some name) :
    ∃ pre post, xs = pre ++ cur :: post ∧ cur ∉ pre ∧ post.head? = some name := by
  induction xs with
  | nil => simp [findNext] at h
  | cons x xs' ih =>
    by_cases hx : x = cur
    · subst hx
      rw [findNext, if_pos rfl] at h
      exact ⟨[], xs', rfl, by simp, h⟩
    · rw [findNext, if_neg hx] at h
      obtain ⟨pre, post, he, hp, hh⟩ := ih h
      refine ⟨x :: pre, post, by rw [he, List.cons_append], ?_, hh⟩
      intro hm
      rcases List.mem_cons.mp hm with h1 | h2
      · exact hx h1.symm
      · exact hp h2

theorem afterFirst_not_mem (xs : List Str) (cur : Str) (h : cur ∉ xs) :
    afterFirst xs cur = [] := by
  induction xs with
  | nil => rfl
  | cons x xs' ih =>
    have hx : ¬ x = cur := fun he => h (List.mem_cons.mpr (Or.inl he.symm))
    simp only [afterFirst, if_neg hx]
    exact ih (fun hm => h (List.mem_cons_of_mem x hm))

theorem afterFirst_decomp (pre post : List Str) (cur : Str) (h : cur ∉ pre) :
    afterFirst (pre ++ cur :: post) cur = post := by
  induction pre with
  | nil => simp [afterFirst]
  | cons c pre' ih =>
    have hc : ¬ c = cur := fun he => h (List.mem_cons.mpr (Or.inl he.symm))
    simp only [List.cons_append, afterFirst, if_neg hc]
    exact ih (fun hm => h (List.mem_cons_of_mem c hm))

theorem afterFirst_subset (xs : List Str) (cur : Str) :
    ∀ y ∈ afterFirst xs cur, y ∈ xs := by
  induction xs with
  | nil => simp [afterFirst]
  | cons x xs' ih =>
    intro y hy
    by_cases hx : x = cur
    · rw [afterFirst, if_pos hx] at hy
      exact List.mem_cons_of_mem x hy
    · rw [afterFirst, if_neg hx] at hy
      exact List.mem_cons_of_mem x (ih y hy)

/-! ### Lemmas about `rollbackScanGo` -/

theorem rollbackScanGo_not_mem (M : List Str) (cur : Str) (k : Nat) (l : List Str) (st : St)
    (h : cur ∉ l) : rollbackScanGo M cur k l st = st := by
  induction l generalizing k st with
  | nil => rfl
  | cons x xs ih =>
    have hx : ¬ x = cur := fun he => h (List.mem_cons.mpr (Or.inl he.symm))
    simp only [rollbackScanGo, if_neg hx]
    exact ih k.succ st (fun hm => h (List.mem_cons_of_mem x hm))

theorem rollbackScanGo_append (M : List Str) (cur : Str) (k : Nat) (a b : List Str) (st : St) :
    rollbackScanGo M cur k (a ++ b) st =
      rollbackScanGo M cur (k + a.length) b (rollbackScanGo M cur k a st) := by
  induction a generalizing k st with
  | nil => simp [rollbackScanGo]
  | cons x xs ih =>
    simp only [List.cons_append, rollbackScanGo, List.length_cons, List.append_eq]
    rw [ih]
    have hlen : k + (xs.length + 1) = k + 1 + xs.length := by omega
    rw [hlen]

theorem rollbackScanGo_hit (M : List Str) (cur : Str) (pre post : List Str) (st : St)
    (hp : cur ∉ pre) (hq : cur ∉ post) :
    rollbackScanGo M cur 0 (pre ++ cur :: post) st =
      if 0 < pre.length then set_current_migration st (M.getD (pre.length - 1) [])
      else del_current_migration st := by
  rw [rollbackScanGo_append M cur 0 pre (cur :: post) st,
    rollbackScanGo_not_mem M cur 0 pre st hp]
  simp only [Nat.zero_add, rollbackScanGo, if_pos rfl]
  exact rollbackScanGo_not_mem M cur (pre.length + 1) post _ hq

/-! ### Lemmas about `statusWalk` -/

theorem statusWalk_false (cur : Str) (xs : List Str) :
    statusWalk cur xs false = xs.map (fun x => (x, false)) := by
  induction xs with
  | nil => rfl
  | cons x xs' ih => simp [statusWalk, ih]

theorem statusWalk_decomp (cur : Str) (pre post : List Str) (h : cur ∉ pre) :
    statusWalk cur (pre ++ cur :: post) true =
      (pre ++ [cur]).map (fun x => (x, true)) ++ post.map (fun x => (x, false)) := by
  induction pre with
  | nil => simp [statusWalk, statusWalk_false]
  | cons c pre' ih =>
    have hc : ¬ c = cur := fun he => h (List.mem_cons.mpr (Or.inl he.symm))
    have h' : cur ∉ pre' := fun hm => h (List.mem_cons_of_mem c hm)
    have hstep : statusWalk cur ((c :: pre') ++ cur :: post) true
        = (c, true) :: statusWalk cur (pre' ++ cur :: post) true := by
      simp [statusWalk, hc]
    rw [hstep, ih h']
    simp

/-! ### Lemmas about `loadMigsAux` -/

theorem loadMigsAux_sound (ls : List Str) : ∀ acc m, loadMigsAux acc ls = some m →
    m = acc ++ ls.filter (fun l => !(strData "//").isPrefixOf l) ∧ (acc.Nodup → m.Nodup) := by
  induction ls with
  | nil =>
    intro acc m h
    simp only [loadMigsAux] at h
    injection h with h1
    subst h1
    simp
  | cons l ls' ih =>
    intro acc m h
    by_cases hcom : (strData "//").isPrefixOf l = true
    · rw [loadMigsAux, if_pos hcom] at h
      obtain ⟨h1, h2⟩ := ih acc m h
      refine ⟨?_, h2⟩
      rw [h1]
      simp [List.filter_cons, hcom]
    · rw [loadMigsAux, if_neg hcom] at h
      by_cases hmem : l ∈ acc
      · rw [if_pos hmem] at h
        exact absurd h (by simp)
      · rw [if_neg hmem] at h
        obtain ⟨h1, h2⟩ := ih (acc ++ [l]) m h
        constructor
        · rw [h1]
          simp [List.filter_cons, hcom, List.append_assoc]
        · intro hnd
          apply h2
          rw [show acc ++ [l] = acc ++ l :: [] from rfl]
          apply List.nodup_middle.mpr
          rw [List.nodup_cons]
          simpa using ⟨hmem, hnd⟩

theorem loadMigs_sound (manifest : Str) (migs : List Str) (h : loadMigs manifest = some migs) :
    migs = (splitOnChar '\n' manifest).filter (fun l => !(strData "//").isPrefixOf l) ∧
      migs.Nodup := by
  obtain ⟨h1, h2⟩ := loadMigsAux_sound (splitOnChar '\n' manifest) [] migs h
  exact ⟨by simpa using h1, h2 List.nodup_nil⟩

theorem loadMigs_not_comment (manifest : Str) (migs : List Str)
    (h : loadMigs manifest = some migs) :
    ∀ p ∈ migs, ¬ (strData "//").isPrefixOf p = true := by
  intro p hp
  obtain ⟨h1, _⟩ := loadMigs_sound manifest migs h
  rw [h1] at hp
  have h2 := (List.mem_filter.mp hp).2
  simp only [Bool.not_eq_true'] at h2
  simp [h2]

theorem loadMigs_count (manifest : Str) (migs : List Str)
    (h : loadMigs manifest = some migs) :
    ∀ p ∈ migs, countOcc (splitOnChar '\n' manifest) p = 1 := by
  intro p hp
  obtain ⟨h1, h2⟩ := loadMigs_sound manifest migs h
  have hpc : (fun l => !(strData "//").isPrefixOf l) p = true := by
    have := (List.mem_filter.mp (h1 ▸ hp)).2
    exact this
  rw [← countOcc_filter (splitOnChar '\n' manifest) (fun l => !(strData "//").isPrefixOf l) p hpc]
  rw [← h1]
  exact nodup_countOcc migs p h2 hp

theorem loadMigsAux_comments (ls : List Str) : ∀ acc,
    (∀ l ∈ ls, (strData "//").isPrefixOf l = true) → loadMigsAux acc ls = some acc := by
  induction ls with
  | nil => intro acc _; rfl
  | cons l ls' ih =>
    intro acc h
    rw [loadMigsAux, if_pos (h l (List.mem_cons_self l ls'))]
    exact ih acc (fun l' hl' => h l' (List.mem_cons_of_mem l hl'))

/-! ### Filter bookkeeping for `deleteGo` -/

theorem mem_of_mem_removeFirst (l : List Str) (x y : Str) (h : y ∈ removeFirst l x) : y ∈ l := by
  induction l with
  | nil => simp [removeFirst] at h
  | cons z t ih =>
    by_cases hz : z = x
    · rw [removeFirst, if_pos hz] at h
      exact List.mem_cons_of_mem z h
    · rw [removeFirst, if_neg hz] at h
      rcases List.mem_cons.mp h with h1 | h2
      · exact List.mem_cons.mpr (Or.inl h1)
      · exact List.mem_cons_of_mem z (ih h2)

theorem removeFirst_filter_chain (ls : List Str) (x : Str) (xs : List Str)
    (hcnt : countOcc ls x ≤ 1) :
    (removeFirst ls x).filter (fun l => !decide (l ∈ xs)) =
      ls.filter (fun l => !decide (l ∈ x :: xs)) := by
  induction ls with
  | nil => simp [removeFirst]
  | cons y t ih =>
    by_cases hyx : y = x
    · subst hyx
      have hc0 : countOcc t y = 0 := by
        simp [countOcc] at hcnt
        omega
      have hnm : y ∉ t := (countOcc_eq_zero t y).mp hc0
      rw [removeFirst, if_pos rfl]
      rw [List.filter_cons]
      have hcond : (!decide (y ∈ y :: xs)) = false := by simp
      rw [hcond]
      simp only [Bool.false_eq_true, if_false]
      apply List.filter_congr
      intro a ha
      have hay : ¬ a = y := fun he => hnm (he ▸ ha)
      simp [hay]
    · have hc1 : countOcc t x ≤ 1 := by
        simp only [countOcc, if_neg hyx, Nat.zero_add] at hcnt
        exact hcnt
      rw [removeFirst, if_neg hyx]
      rw [List.filter_cons, List.filter_cons]
      have hiff : (!decide (y ∈ x :: xs)) = (!decide (y ∈ xs)) := by
        have : (y ∈ x :: xs) ↔ (y ∈ xs) := by
          constructor
          · intro hm
            rcases List.mem_cons.mp hm with h1 | h2
            · exact absurd h1 hyx
            · exact h2
          · exact List.mem_cons_of_mem x
        simp [this]
      rw [hiff, ih hc1]

/-! ### The `deleteGo` loop, specified -/

theorem deleteGo_spec (pending : List Str) : ∀ (ls : List Str) (st : St),
    (∀ l ∈ ls, '\n' ∉ l) → pending.Nodup →
    (∀ p ∈ pending, countOcc ls p = 1) →
    (∀ p ∈ pending, p ∈ st.dirs) →
    ls.filter (fun l => !decide (l ∈ pending)) ≠ [] →
    deleteGo pending (paddedLines ls) st =
      (Outcome.ok,
        { st with
            manifest := joinNl (ls.filter (fun l => !decide (l ∈ pending))),
            dirs := pending.foldl removeFirst st.dirs }) := by
  induction pending with
  | nil =>
    intro ls st hlines hnd hcnt hdirs hne
    have hfe : ls.filter (fun l => !decide (l ∈ ([] : List Str))) = ls := by simp
    rw [hfe] at hne ⊢
    rw [deleteGo]
    have hlen : ¬ (paddedLines ls).length < 2 := by
      rw [paddedLines_join ls hne]
      simp only [List.length_cons, List.length_append, List.length_singleton]
      omega
    rw [if_neg hlen]
    have hm : ((paddedLines ls).drop 1).dropLast = joinNl ls := by
      rw [paddedLines_join ls hne]
      simp
    rw [hm]
    rfl
  | cons x xs ih =>
    intro ls st hlines hnd hcnt hdirs hne
    have hxp : x ∈ x :: xs := List.mem_cons_self x xs
    have hxd : x ∈ st.dirs := hdirs x hxp
    have hcx : countOcc ls x = 1 := hcnt x hxp
    have hxls : x ∈ ls := by
      by_contra hc
      have h0 := (countOcc_eq_zero ls x).mpr hc
      rw [h0] at hcx
      exact absurd hcx (by simp)
    have hxnl : '\n' ∉ x := hlines x hxls
    rw [deleteGo, if_pos hxd]
    rw [replace_padded_removeFirst x hxnl ls hlines hcx]
    rw [List.nodup_cons] at hnd
    have hsub : ∀ p ∈ xs, p ≠ x := fun p hp he => hnd.1 (he ▸ hp)
    have hlines' : ∀ l ∈ removeFirst ls x, '\n' ∉ l :=
      fun l hl => hlines l (mem_of_mem_removeFirst ls x l hl)
    have hcnt' : ∀ p ∈ xs, countOcc (removeFirst ls x) p = 1 := by
      intro p hp
      rw [removeFirst_eq_filter ls x hcx.le]
      rw [countOcc_filter ls (fun y => !decide (y = x)) p (by simp [hsub p hp])]
      exact hcnt p (List.mem_cons_of_mem x hp)
    have hdirs' : ∀ p ∈ xs, p ∈ removeFirst st.dirs x := by
      intro p hp
      exact (mem_removeFirst_of_ne st.dirs x p (hsub p hp)).mpr
        (hdirs p (List.mem_cons_of_mem x hp))
    have hchain := removeFirst_filter_chain ls x xs hcx.le
    have hne' : (removeFirst ls x).filter (fun l => !decide (l ∈ xs)) ≠ [] := by
      rw [hchain]
      exact hne
    rw [ih (removeFirst ls x) { st with dirs := removeFirst st.dirs x }
      hlines' hnd.2 hcnt' hdirs' hne']
    rw [hchain]
    rfl

/-! ### Claim theorems -/

/-- C1, counterexample: the original claim says every non-empty fragment
of the `;`-split is executed.  False: for the script `"a;;b"` the fragment
`"b"` is non-empty, yet `apply_migration` executes only `"a"`, because the
loop `break`s at the first empty fragment (src/main.rs:168-170), and the
empty middle fragment stops execution before `"b"` is reached (all
statements accepted by the session here). -/
theorem C1_counterexample :
    strData "b" ∈ splitOnChar ';' (strData "a;;b") ∧
    strData "b" ≠ [] ∧
    (apply_migration (fun _ => true) (strData "a;;b") st0).1.log = [strData "a"] := by
  refine ⟨by decide, by decide, by decide⟩

/-- C1 (amended): Executor.run splits the script on the statement
delimiter `;` and executes, in order, exactly the non-empty fragments that
occur before the first empty fragment, stopping at the first statement the
session rejects (so empty trailing fragments are ignored, but a non-empty
fragment occurring after an empty fragment is also skipped); on the first
statement failure it stops immediately, the rows of the tracking table are
untouched, already-executed statements stay in the log (not undone), and
the run succeeds exactly when every fragment before the first empty one is
accepted. -/
theorem C1_executor_run (ok : Str → Bool) (script : Str) (st : St) :
    (apply_migration ok script st).1.log = st.log ++ execStmts ok script ∧
    (apply_migration ok script st).1.rows = st.rows ∧
    (apply_migration ok script st).2 =
      ((splitOnChar ';' script).takeWhile (fun q => !q.isEmpty)).all ok :=
  ⟨apply_migration_log ok script st, (apply_migration_frame ok script st).1,
    apply_migration_ok_iff ok script st⟩

/-- C2: in the `apply` branch the next migration is the first Registry
entry when no pointer is set, and the entry at index `i + 1` when the
pointer occupies index `i`; the branch fails with the
"No migration to apply!" error exactly when no next entry exists, and in
that case the whole state (pointer included) is returned unchanged. -/
theorem C2_apply_selection (ok : Str → Bool) (upOf : Str → Option Str) (migs : List Str)
    (st : St) (i : Nat) :
    (get_cur st = none → nextMigration migs (get_cur st) = migs.head?) ∧
    (∀ cur, get_cur st = some cur → migs.Nodup → migs.get? i = some cur →
      nextMigration migs (get_cur st) = migs.get? (i + 1)) ∧
    (nextMigration migs (get_cur st) = none →
      applyOp ok upOf migs st = (Outcome.err (strData "No migration to apply!"), st)) ∧
    (∀ name, nextMigration migs (get_cur st) = some name →
      (applyOp ok upOf migs st).1 ≠ Outcome.err (strData "No migration to apply!")) := by
  refine ⟨?_, ?_, ?_, ?_⟩
  · intro h
    rw [h]
    rfl
  · intro cur hc hnd hi
    rw [hc]
    have hd := get?_decomp migs i cur hi
    have hnm := nodup_split_not_mem migs i cur hnd hi
    have hlen := length_take_of_get? migs i cur hi
    simp only [nextMigration]
    conv_lhs => rw [hd]
    rw [findNext_decomp (migs.take i) (migs.drop (i + 1)) cur hnm.1]
    conv_rhs => rw [hd]
    rw [show i + 1 = (migs.take i).length + 1 from by rw [hlen]]
    rw [get?_concat_succ]
  · intro hn
    simp [applyOp, hn]
  · intro name hn
    simp only [applyOp, hn]
    cases hup : upOf name with
    | none =>
      simp
      decide
    | some up =>
      by_cases hr : (apply_migration ok up st).2
      · simp [hr]
      · simp [hr]
        decide

/-- C2 witness: with an empty Registry and no pointer, `apply` fails with
the "No migration to apply!" error and the state is unchanged. -/
theorem C2_witness :
    applyOp (fun _ => true) (fun _ => none) [] st0
      = (Outcome.err (strData "No migration to apply!"), st0) :=
  (C2_apply_selection (fun _ => true) (fun _ => none) [] st0 0).2.2.1 (by decide)

/-- C3: when the selected migration's up-script fails on some statement,
the `apply` branch aborts with the statement-failure error; the tracking
table rows - hence the CurrentPointer - keep their pre-apply value
(`set_current_migration` is only reached after a fully successful script),
while the statements executed before the failure remain in the log. -/
theorem C3_apply_script_failure (ok : Str → Bool) (upOf : Str → Option Str) (migs : List Str)
    (st : St) (name up : Str)
    (hn : nextMigration migs (get_cur st) = some name)
    (hu : upOf name = some up)
    (hf : (apply_migration ok up st).2 = false) :
    applyOp ok upOf migs st =
      (Outcome.err (strData "Error applying migration query"), (apply_migration ok up st).1) ∧
    (apply_migration ok up st).1.rows = st.rows ∧
    get_cur (apply_migration ok up st).1 = get_cur st ∧
    (apply_migration ok up st).1.log = st.log ++ execStmts ok up := by
  refine ⟨?_, (apply_migration_frame ok up st).1, ?_, apply_migration_log ok up st⟩
  · simp [applyOp, hn, hu, hf]
  · simp [get_cur, get_current_migration, (apply_migration_frame ok up st).1]

/-- C3 witness: Registry `["a"]`, no pointer, an up-script `"x"` whose
statement the session rejects: `apply` aborts and the rows stay empty. -/
theorem C3_witness :
    applyOp (fun _ => false) (fun _ => some (strData "x")) [strData "a"] st0 =
      (Outcome.err (strData "Error applying migration query"),
        (apply_migration (fun _ => false) (strData "x") st0).1) :=
  (C3_apply_script_failure (fun _ => false) (fun _ => some (strData "x")) [strData "a"] st0
    (strData "a") (strData "x") (by decide) (by decide) (by decide)).1

/-- C10: the pointer read takes the first row of the query result: with
more than one row in the tracking table it does not fail but returns row
zero, and it returns `none` exactly when the result holds no rows. -/
theorem C10_pointer_take_first (rows : List Str) :
    (1 < rows.length → get_current_migration (some rows) = rows.get? 0 ∧
      get_current_migration (some rows) ≠ none) ∧
    (get_current_migration (some rows) = none ↔ rows = []) := by
  constructor
  · intro h
    cases rows with
    | nil => simp at h
    | cons a t => simp [get_current_migration, List.get?]
  · cases rows with
    | nil => simp [get_current_migration]
    | cons a t => simp [get_current_migration]

/-- C10 witness: a two-row table yields the first row, not a failure. -/
theorem C10_witness :
    get_current_migration (some [strData "a", strData "b"]) = [strData "a", strData "b"].get? 0 ∧
    get_current_migration (some [strData "a", strData "b"]) ≠ none :=
  (C10_pointer_take_first [strData "a", strData "b"]).1 (by decide)

/-- C4: `rollback` with no pointer set fails with the "No migration
currently applied" error and leaves the state unchanged; with a pointer
`cur` sitting at index `i` of a duplicate-free Registry, whose down-script
exists and runs successfully, it executes the down-script (its statements
are appended to the log) and then repositions the tracking rows to the
entry at index `i - 1`, clearing them entirely when `i = 0`. -/
theorem C4_rollback (ok : Str → Bool) (downOf : Str → Option Str) (migs : List Str)
    (st : St) (i : Nat) :
    (get_cur st = none →
      rollbackOp ok downOf migs st =
        (Outcome.err (strData "No migration currently applied"), st)) ∧
    (∀ cur down, get_cur st = some cur → migs.Nodup → migs.get? i = some cur →
      downOf cur = some down → (apply_migration ok down st).2 = true →
      rollbackOp ok downOf migs st =
        (Outcome.ok,
          if 0 < i then
            set_current_migration (apply_migration ok down st).1 (migs.getD (i - 1) [])
          else del_current_migration (apply_migration ok down st).1) ∧
      (apply_migration ok down st).1.log = st.log ++ execStmts ok down) := by
  constructor
  · intro h
    simp [rollbackOp, h]
  · intro cur down hc hnd hi hdw hrun
    refine ⟨?_, apply_migration_log ok down st⟩
    simp only [rollbackOp, hc, hdw, hrun, if_true]
    have hd := get?_decomp migs i cur hi
    have hnm := nodup_split_not_mem migs i cur hnd hi
    have hlen := length_take_of_get? migs i cur hi
    unfold rollbackScan
    conv_lhs => rw [hd]
    rw [rollbackScanGo_hit (migs.take i ++ cur :: migs.drop (i + 1)) cur
      (migs.take i) (migs.drop (i + 1)) _ hnm.1 hnm.2]
    rw [hlen, ← hd]

/-- C4 witness: Registry `["a"]`, pointer on `"a"` (index 0), an empty
down-script: rollback succeeds and clears the tracking rows. -/
theorem C4_witness :
    rollbackOp (fun _ => true) (fun _ => some []) [strData "a"]
      { rows := [strData "a"], log := [], manifest := [], dirs := [] } =
      (Outcome.ok,
        del_current_migration
          (apply_migration (fun _ => true) []
            { rows := [strData "a"], log := [], manifest := [], dirs := [] }).1) :=
  ((C4_rollback (fun _ => true) (fun _ => some []) [strData "a"]
    { rows := [strData "a"], log := [], manifest := [], dirs := [] } 0).2
    (strData "a") [] (by decide) (by decide) (by decide) (by decide) (by decide)).1

/-- C6: `redo` requires a pointer (failing with "No migration currently
applied" otherwise, state unchanged); it never writes the tracking table,
so the rows - and hence the pointer - after any `redo`, successful or not,
equal their prior value; on the success path it runs the current entry's
down-script and then the same entry's up-script, in that order. -/
theorem C6_redo (ok : Str → Bool) (upOf downOf : Str → Option Str) (st : St) :
    (get_cur st = none →
      redoOp ok upOf downOf st =
        (Outcome.err (strData "No migration currently applied"), st)) ∧
    (redoOp ok upOf downOf st).2.rows = st.rows ∧
    get_cur (redoOp ok upOf downOf st).2 = get_cur st ∧
    (∀ cur down up, get_cur st = some cur → downOf cur = some down → upOf cur = some up →
      (apply_migration ok down st).2 = true →
      (apply_migration ok up (apply_migration ok down st).1).2 = true →
      redoOp ok upOf downOf st =
        (Outcome.ok, (apply_migration ok up (apply_migration ok down st).1).1) ∧
      (redoOp ok upOf downOf st).2.log = st.log ++ execStmts ok down ++ execStmts ok up) := by
  have hrows : (redoOp ok upOf downOf st).2.rows = st.rows := by
    cases hc : get_cur st with
    | none => simp [redoOp, hc]
    | some cur =>
      cases hdw : downOf cur with
      | none => simp [redoOp, hc, hdw]
      | some down =>
        by_cases h1 : (apply_migration ok down st).2 = true
        · cases hup : upOf cur with
          | none =>
            simp only [redoOp, hc, hdw, h1, if_true, hup]
            exact (apply_migration_frame ok down st).1
          | some up =>
            by_cases h2 : (apply_migration ok up (apply_migration ok down st).1).2 = true
            · simp only [redoOp, hc, hdw, h1, if_true, hup, h2]
              rw [(apply_migration_frame ok up _).1, (apply_migration_frame ok down st).1]
            · simp only [redoOp, hc, hdw, h1, if_true, hup, if_neg h2]
              rw [(apply_migration_frame ok up _).1, (apply_migration_frame ok down st).1]
        · simp only [redoOp, hc, hdw, if_neg h1]
          exact (apply_migration_frame ok down st).1
  refine ⟨?_, hrows, ?_, ?_⟩
  · intro h
    simp [redoOp, h]
  · simp [get_cur, get_current_migration, hrows]
  · intro cur down up hc hdw hup h1 h2
    have hred : redoOp ok upOf downOf st =
        (Outcome.ok, (apply_migration ok up (apply_migration ok down st).1).1) := by
      simp only [redoOp, hc, hdw, h1, if_true, hup, h2]
    refine ⟨hred, ?_⟩
    rw [hred]
    rw [apply_migration_log ok up _, apply_migration_log ok down st]

/-- C6 witness: pointer on `"a"`, empty down- and up-scripts: redo
succeeds and the tracking rows are exactly as before. -/
theorem C6_witness :
    redoOp (fun _ => true) (fun _ => some []) (fun _ => some [])
      { rows := [strData "a"], log := [], manifest := [], dirs := [] } =
      (Outcome.ok,
        (apply_migration (fun _ => true) []
          (apply_migration (fun _ => true) []
            { rows := [strData "a"], log := [], manifest := [], dirs := [] }).1).1) :=
  ((C6_redo (fun _ => true) (fun _ => some []) (fun _ => some [])
    { rows := [strData "a"], log := [], manifest := [], dirs := [] }).2.2.2
    (strData "a") [] [] (by decide) (by decide) (by decide) (by decide) (by decide)).1

/-- C9: the status branch marks, for a pointer at index `i` of a
duplicate-free Registry, exactly the entries at indices `0 … i` as Applied
(`true`) and all later entries as Pending (`false`); with no pointer set,
every entry is Pending; the branch performs no write: the state it
returns is the input state. -/
theorem C9_status (migs : List Str) (st : St) (i : Nat) :
    (get_cur st = none → (statusOp migs st).1 = migs.map (fun x => (x, false))) ∧
    (∀ cur, get_cur st = some cur → migs.Nodup → migs.get? i = some cur →
      (statusOp migs st).1 =
        (migs.take (i + 1)).map (fun x => (x, true)) ++
          (migs.drop (i + 1)).map (fun x => (x, false))) ∧
    (statusOp migs st).2 = st := by
  refine ⟨?_, ?_, rfl⟩
  · intro h
    simp [statusOp, h]
  · intro cur hc hnd hi
    have hd := get?_decomp migs i cur hi
    have hnm := nodup_split_not_mem migs i cur hnd hi
    simp only [statusOp, hc]
    conv_lhs => rw [hd]
    rw [statusWalk_decomp cur (migs.take i) (migs.drop (i + 1)) hnm.1]
    rw [List.take_succ]
    have hi' : migs[i]? = some cur := by
      rw [← List.get?_eq_getElem?]
      exact hi
    rw [hi']
    simp

/-- C9 witness: Registry `["a", "b"]` with the pointer on `"a"`: `"a"` is
Applied, `"b"` is Pending, and the state is untouched. -/
theorem C9_witness :
    (statusOp [strData "a", strData "b"]
        { rows := [strData "a"], log := [], manifest := [], dirs := [] }).1 =
      ([strData "a", strData "b"].take 1).map (fun x => (x, true)) ++
        ([strData "a", strData "b"].drop 1).map (fun x => (x, false)) :=
  (C9_status [strData "a", strData "b"]
    { rows := [strData "a"], log := [], manifest := [], dirs := [] } 0).2.1
    (strData "a") (by decide) (by decide) (by decide)

/-! ### Specialized forms of the rollback scan -/

theorem rollbackScan_head (M : List Str) (cur : Str) (post : List Str) (st : St)
    (hq : cur ∉ post) :
    rollbackScanGo M cur 0 (cur :: post) st = del_current_migration st := by
  have h := rollbackScanGo_hit M cur [] post st (by simp) hq
  simpa using h

theorem rollbackScan_at (M : List Str) (cur : Str) (pre post : List Str) (st : St)
    (hpre : pre ≠ []) (hp : cur ∉ pre) (hq : cur ∉ post) :
    rollbackScanGo M cur 0 (pre ++ cur :: post) st =
      set_current_migration st (M.getD (pre.length - 1) []) := by
  rw [rollbackScanGo_hit M cur pre post st hp hq,
    if_pos (List.length_pos.mpr hpre)]

/-- C8: `new` with a name already present in the loaded Registry (exact,
case-sensitive membership) fails with the duplicate-name panic before any
filesystem write, so the manifest and the directories are unchanged; with
a fresh name (and no stale directory of that name) it creates the
directory and rewrites the manifest as the old text, a newline, then the
name - and since names hold no newline, the rewritten manifest's line list
is the old line list with the name appended as the new last line. -/
theorem C8_new (name : Str) (migs : List Str) (st : St) :
    (name ∈ migs →
      newOp name migs st = (Outcome.err (strData "Migration name is already used!"), st)) ∧
    (name ∉ migs → name ∉ st.dirs →
      newOp name migs st =
        (Outcome.ok,
          { st with
              dirs := st.dirs ++ [name],
              manifest := st.manifest ++ '\n' :: name }) ∧
      ('\n' ∉ name →
        splitOnChar '\n' (st.manifest ++ '\n' :: name) =
          splitOnChar '\n' st.manifest ++ [name])) := by
  constructor
  · intro h
    simp [newOp, h]
  · intro h1 h2
    exact ⟨by simp [newOp, h1, h2],
      fun h3 => splitOnChar_append_last st.manifest name h3⟩

/-- C8 witness: adding `"b"` to the Registry `["a"]` succeeds, appends
the directory, and appends `"b"` as the manifest's new last line. -/
theorem C8_witness :
    newOp (strData "b") [strData "a"] st0 =
      (Outcome.ok,
        { st0 with
            dirs := st0.dirs ++ [strData "b"],
            manifest := st0.manifest ++ '\n' :: strData "b" }) ∧
    splitOnChar '\n' (st0.manifest ++ '\n' :: strData "b") =
      splitOnChar '\n' st0.manifest ++ [strData "b"] := by
  have h := (C8_new (strData "b") [strData "a"] st0).2 (by decide) (by decide)
  exact ⟨h.1, h.2 (by decide)⟩

/-- C5: whenever `apply` succeeds on a duplicate-free Registry and the
immediately following `rollback` (same Registry and scripts) also
succeeds, the CurrentPointer read after the rollback equals its pre-apply
value: the entry that was current before the `apply`, or absent when no
pointer was set. -/
theorem C5_apply_then_rollback (ok : Str → Bool) (upOf downOf : Str → Option Str)
    (migs : List Str) (st : St)
    (hnd : migs.Nodup)
    (h1 : (applyOp ok upOf migs st).1 = Outcome.ok)
    (h2 : (rollbackOp ok downOf migs (applyOp ok upOf migs st).2).1 = Outcome.ok) :
    get_cur (rollbackOp ok downOf migs (applyOp ok upOf migs st).2).2 = get_cur st := by
  cases hn : nextMigration migs (get_cur st) with
  | none => simp [applyOp, hn] at h1
  | some name =>
    cases hup : upOf name with
    | none => simp [applyOp, hn, hup] at h1
    | some up =>
      by_cases hrun : (apply_migration ok up st).2 = true
      · have happ2 : (applyOp ok upOf migs st).2 =
            set_current_migration (apply_migration ok up st).1 name := by
          simp only [applyOp, hn, hup, hrun, if_true]
        rw [happ2] at h2 ⊢
        have hg1 : get_cur (set_current_migration (apply_migration ok up st).1 name)
            = some name := rfl
        cases hdw : downOf name with
        | none => simp [rollbackOp, hg1, hdw] at h2
        | some down =>
          by_cases hrun2 : (apply_migration ok down
              (set_current_migration (apply_migration ok up st).1 name)).2 = true
          · have hroll2 : (rollbackOp ok downOf migs
                (set_current_migration (apply_migration ok up st).1 name)).2 =
                rollbackScan migs name (apply_migration ok down
                  (set_current_migration (apply_migration ok up st).1 name)).1 := by
              simp only [rollbackOp, hg1, hdw, hrun2, if_true]
            rw [hroll2]
            cases hc : get_cur st with
            | none =>
              rw [hc] at hn
              have hn' : migs.head? = some name := hn
              cases hmigs : migs with
              | nil =>
                rw [hmigs] at hn'
                simp at hn'
              | cons m0 rest =>
                rw [hmigs] at hn'
                have hname : m0 = name := by
                  simp only [List.head?] at hn'
                  injection hn' with hx
                subst hname
                have hpost : m0 ∉ rest := by
                  rw [hmigs] at hnd
                  exact (List.nodup_cons.mp hnd).1
                unfold rollbackScan
                rw [rollbackScan_head (m0 :: rest) m0 rest _ hpost]
                rfl
            | some cur =>
              rw [hc] at hn
              have hn' : findNext migs cur = some name := hn
              obtain ⟨pre, post, he, hp, hh⟩ := findNext_some migs cur name hn'
              cases post with
              | nil => simp at hh
              | cons p0 post' =>
                have hp0 : p0 = name := by
                  simp only [List.head?] at hh
                  injection hh with hx
                subst hp0
                have he2 : migs = (pre ++ [cur]) ++ p0 :: post' := by
                  rw [he]
                  simp [List.append_assoc]
                have hnd2 : ((pre ++ [cur]) ++ p0 :: post').Nodup := he2 ▸ hnd
                have hmid := List.nodup_middle.mp hnd2
                rw [List.nodup_cons] at hmid
                have hnp : p0 ∉ pre ++ [cur] :=
                  fun hmm => hmid.1 (List.mem_append.mpr (Or.inl hmm))
                have hnq : p0 ∉ post' :=
                  fun hmm => hmid.1 (List.mem_append.mpr (Or.inr hmm))
                unfold rollbackScan
                conv_lhs => rw [he2]
                rw [rollbackScan_at ((pre ++ [cur]) ++ p0 :: post') p0 (pre ++ [cur]) post' _
                  (by simp) hnp hnq]
                have hgd : (((pre ++ [cur]) ++ p0 :: post').getD ((pre ++ [cur]).length - 1) [])
                    = cur := by
                  have hlen2 : (pre ++ [cur]).length - 1 = pre.length := by simp
                  rw [hlen2]
                  rw [show (pre ++ [cur]) ++ p0 :: post' = pre ++ cur :: p0 :: post' from by
                    simp [List.append_assoc]]
                  exact getD_concat pre cur (p0 :: post')
                rw [hgd]
                rfl
          · simp [rollbackOp, hg1, hdw, if_neg hrun2] at h2
      · simp [applyOp, hn, hup, if_neg hrun] at h1

/-- C5 witness: Registry `["a"]`, no pointer, empty scripts: `apply`
succeeds (pointer becomes `"a"`), the following `rollback` succeeds, and
the pointer is absent again, as before the `apply`. -/
theorem C5_witness :
    get_cur (rollbackOp (fun _ => true) (fun _ => some []) [strData "a"]
        (applyOp (fun _ => true) (fun _ => some []) [strData "a"] st0).2).2 = get_cur st0 :=
  C5_apply_then_rollback (fun _ => true) (fun _ => some []) (fun _ => some [])
    [strData "a"] st0 (by decide) (by decide) (by decide)

/-! ### Remaining helpers for the delete branch -/

theorem afterFirst_sublist (xs : List Str) (cur : Str) :
    (afterFirst xs cur).Sublist xs := by
  induction xs with
  | nil => simp [afterFirst]
  | cons x xs' ih =>
    by_cases hx : x = cur
    · rw [afterFirst, if_pos hx]
      exact List.sublist_cons_self x xs'
    · rw [afterFirst, if_neg hx]
      exact ih.cons x

theorem nodup_countOcc_le (l : List Str) (x : Str) (h : l.Nodup) : countOcc l x ≤ 1 := by
  by_cases hm : x ∈ l
  · rw [nodup_countOcc l x h hm]
  · rw [(countOcc_eq_zero l x).mpr hm]
    omega

theorem foldl_removeFirst_mem (pending : List Str) : ∀ (dirs : List Str), dirs.Nodup →
    ∀ d, d ∈ pending.foldl removeFirst dirs ↔ (d ∈ dirs ∧ d ∉ pending) := by
  induction pending with
  | nil => simp
  | cons x xs ih =>
    intro dirs hdn d
    rw [List.foldl_cons, removeFirst_eq_filter dirs x (nodup_countOcc_le dirs x hdn)]
    rw [ih (dirs.filter (fun y => !decide (y = x))) (hdn.filter _) d]
    simp only [List.mem_filter, List.mem_cons, Bool.not_eq_true', decide_eq_false_iff_not]
    constructor
    · rintro ⟨⟨hmem, hne⟩, hnot⟩
      exact ⟨hmem, fun hor => hor.elim hne hnot⟩
    · rintro ⟨hmem, hnot⟩
      exact ⟨⟨hmem, fun he => hnot (Or.inl he)⟩, fun hx => hnot (Or.inr hx)⟩

theorem splitOnChar_joinNl (ls : List Str) (h : ls ≠ []) (hnl : ∀ l ∈ ls, '\n' ∉ l) :
    splitOnChar '\n' (joinNl ls) = ls := by
  induction ls with
  | nil => exact absurd rfl h
  | cons l r ih =>
    cases r with
    | nil =>
      have hjl : joinNl [l] = l := rfl
      rw [hjl]
      exact splitOnChar_no_sep '\n' l (hnl l (List.mem_cons_self l []))
    | cons r0 rs =>
      have hjl : joinNl (l :: r0 :: rs) = l ++ '\n' :: joinNl (r0 :: rs) := rfl
      rw [hjl, splitOnChar_append_sep '\n' l (joinNl (r0 :: rs)) (hnl l (List.mem_cons_self l _))]
      rw [ih (by simp) (fun l' hl' => hnl l' (List.mem_cons_of_mem l hl'))]

/-- C7: the `delete` branch removes exactly the pending entries.  With the
Registry loaded from the manifest, every pending directory present, the
directory listing duplicate-free, and the manifest's first line a comment
banner: the operation succeeds; the tracking rows (the pointer) are never
written; a directory survives exactly when it is not pending; the
rewritten manifest is the old line list with exactly the pending lines
removed; with no pointer set all Registry entries are pending and the
rewritten manifest re-loads as the empty Registry; with a pointer at the
first occurrence index `i`, the pending entries are exactly the entries
strictly after index `i`. -/
theorem C7_delete (migs : List Str) (st : St) (l0 : Str)
    (hload : loadMigs st.manifest = some migs)
    (hdirsN : st.dirs.Nodup)
    (hd : ∀ p ∈ pendingOf migs (get_cur st), p ∈ st.dirs)
    (hh : (splitOnChar '\n' st.manifest).head? = some l0)
    (hcom : (strData "//").isPrefixOf l0 = true) :
    (deleteOp migs st).1 = Outcome.ok ∧
    (deleteOp migs st).2.rows = st.rows ∧
    (∀ d, d ∈ (deleteOp migs st).2.dirs ↔
      (d ∈ st.dirs ∧ d ∉ pendingOf migs (get_cur st))) ∧
    (deleteOp migs st).2.manifest =
      joinNl ((splitOnChar '\n' st.manifest).filter
        (fun l => !decide (l ∈ pendingOf migs (get_cur st)))) ∧
    (get_cur st = none → pendingOf migs (get_cur st) = migs ∧
      loadMigs (deleteOp migs st).2.manifest = some []) ∧
    (∀ cur i, get_cur st = some cur → migs.get? i = some cur → cur ∉ migs.take i →
      pendingOf migs (get_cur st) = migs.drop (i + 1)) := by
  obtain ⟨hmf, hmnd⟩ := loadMigs_sound st.manifest migs hload
  have hlines : ∀ l ∈ splitOnChar '\n' st.manifest, '\n' ∉ l :=
    sep_not_mem_splitOnChar '\n' st.manifest
  have hsub : ∀ p ∈ pendingOf migs (get_cur st), p ∈ migs := by
    cases hc : get_cur st with
    | none =>
      intro p hp
      exact hp
    | some cur =>
      intro p hp
      exact afterFirst_subset migs cur p hp
  have hpnd : (pendingOf migs (get_cur st)).Nodup := by
    cases hc : get_cur st with
    | none => exact hmnd
    | some cur => exact hmnd.sublist (afterFirst_sublist migs cur)
  have hcnt : ∀ p ∈ pendingOf migs (get_cur st), countOcc (splitOnChar '\n' st.manifest) p = 1 :=
    fun p hp => loadMigs_count st.manifest migs hload p (hsub p hp)
  have hl0 : l0 ∈ splitOnChar '\n' st.manifest := by
    cases hls : splitOnChar '\n' st.manifest with
    | nil => rw [hls] at hh; simp at hh
    | cons a t =>
      rw [hls] at hh
      simp only [List.head?] at hh
      injection hh with hx
      exact List.mem_cons.mpr (Or.inl hx.symm)
  have hl0m : l0 ∉ migs := fun hm => loadMigs_not_comment st.manifest migs hload l0 hm hcom
  have hl0p : l0 ∉ pendingOf migs (get_cur st) := fun hp => hl0m (hsub l0 hp)
  have hne : (splitOnChar '\n' st.manifest).filter
      (fun l => !decide (l ∈ pendingOf migs (get_cur st))) ≠ [] :=
    List.ne_nil_of_mem (List.mem_filter.mpr ⟨hl0, by simp [hl0p]⟩)
  have hpv : paddedLines (splitOnChar '\n' st.manifest) = '\n' :: st.manifest ++ ['\n'] := by
    rw [paddedLines_join _ (splitOnChar_ne_nil '\n' st.manifest), joinNl_splitOnChar,
      List.cons_append]
  have hspec := deleteGo_spec (pendingOf migs (get_cur st)) (splitOnChar '\n' st.manifest) st
    hlines hpnd hcnt hd hne
  have hdel : deleteOp migs st =
      (Outcome.ok,
        { st with
            manifest := joinNl ((splitOnChar '\n' st.manifest).filter
              (fun l => !decide (l ∈ pendingOf migs (get_cur st)))),
            dirs := (pendingOf migs (get_cur st)).foldl removeFirst st.dirs }) := by
    rw [deleteOp, ← hpv]
    exact hspec
  refine ⟨by rw [hdel], by rw [hdel], ?_, by rw [hdel], ?_, ?_⟩
  · intro d
    rw [hdel]
    exact foldl_removeFirst_mem (pendingOf migs (get_cur st)) st.dirs hdirsN d
  · intro hc
    have hpm : pendingOf migs (get_cur st) = migs := by
      rw [hc]
      rfl
    refine ⟨hpm, ?_⟩
    rw [hdel]
    have hlnl : ∀ l ∈ (splitOnChar '\n' st.manifest).filter
        (fun l => !decide (l ∈ pendingOf migs (get_cur st))), '\n' ∉ l :=
      fun l hl => hlines l (List.mem_filter.mp hl).1
    rw [loadMigs, splitOnChar_joinNl _ hne hlnl]
    apply loadMigsAux_comments
    intro l hl
    obtain ⟨hlm, hcond⟩ := List.mem_filter.mp hl
    by_contra hncom
    have hlmigs : l ∈ migs := by
      rw [hmf, List.mem_filter]
      refine ⟨hlm, ?_⟩
      cases hb : (strData "//").isPrefixOf l with
      | true => exact absurd hb hncom
      | false => simp [hb]
    exact (by simpa [hpm] using hcond : l ∉ migs) hlmigs
  · intro cur i hcur hi htake
    rw [hcur]
    simp only [pendingOf]
    conv_lhs => rw [get?_decomp migs i cur hi]
    rw [afterFirst_decomp (migs.take i) (migs.drop (i + 1)) cur htake]

/-- C7 witness: manifest `"//h\na\nb"`, pointer on `"a"`, directory `"b"`
present: `delete` succeeds, the rows are untouched, and the pending set is
exactly the suffix after the pointer. -/
theorem C7_witness :
    (deleteOp [strData "a", strData "b"] stDel).1 = Outcome.ok ∧
    (deleteOp [strData "a", strData "b"] stDel).2.rows = stDel.rows ∧
    pendingOf [strData "a", strData "b"] (get_cur stDel) = [strData "a", strData "b"].drop 1 := by
  have h := C7_delete [strData "a", strData "b"] stDel (strData "//h")
    (by decide) (by decide) (by decide) (by decide) (by decide)
  exact ⟨h.1, h.2.1, h.2.2.2.2.2 (strData "a") 0 (by decide) (by decide) (by decide)⟩
